import Mathlib

/-!
Verification development for the context-budgeted batching and suggestion-extraction
engine of an automated pull-request review agent.

The TypeScript source is shallowly embedded:
* JS strings are modelled as Lean `String` (a list of characters); the JS string
  operations used by the code (`split` with a one-character separator, `join`,
  `toLowerCase`, `trim`, `startsWith`, `substring`, `slice`) are defined below on
  `String.data` so that every definition is executable and kernel-reducible.
* The token estimator (`gpt-tokenizer`'s `encode`/`encodeChat`) is an external
  library; it enters the model as an explicit function parameter (`encodeChatLen`,
  `tokLen`), exactly as the spec treats it (an estimation capability).
* Asynchronous code returning promises is modelled in the `Except` monad;
  `Promise.all` over review requests is `promiseAll` (first rejection rejects).
* Dynamic JS values (the output of the `xml2js` XML parser and of `JSON.parse`)
  are modelled by the inductive `JsVal` together with JS truthiness, `typeof`,
  property access, `String(...)` conversion and `JSON.stringify`.
  JS numbers are modelled as integers (the only numbers reaching the embedded
  code are line numbers declared as integers in the function-call schema).
-/

/-! ## JS string primitives -/

/-- JS `\s` (whitespace) character class, restricted to the code points that occur in
the embedded strings: space, tab, line feed, vertical tab, form feed, carriage
return, and NBSP. -/
def isSpaceChar (c : Char) : Bool :=
  c == ' ' || c == '\t' || c == '\n' || c == Char.ofNat 11 || c == Char.ofNat 12 ||
  c == Char.ofNat 13 || c == Char.ofNat 160

/-- JS `\w` character class: ASCII letters, digits, underscore. -/
def isWordChar (c : Char) : Bool :=
  c.isAlphanum || c == '_'

/-- `String.prototype.split` with a one-character separator (the source only
splits on `"\n"`, `"."` and `"/"`). -/
def splitOnChar (sep : Char) : List Char → List (List Char)
  | [] => [[]]
  | c :: rest =>
    if c == sep then [] :: splitOnChar sep rest
    else
      match splitOnChar sep rest with
      | [] => [[c]]
      | h :: t => (c :: h) :: t

def strSplit (s : String) (sep : Char) : List String :=
  (splitOnChar sep s.data).map String.mk

/-- `Array.prototype.join(sep)` for an array of strings. -/
def strJoin (sep : String) : List String → String
  | [] => ""
  | [x] => x
  | x :: y :: rest => x ++ sep ++ strJoin sep (y :: rest)

/-- `String.prototype.toLowerCase` (ASCII, which is all the source compares). -/
def jsToLower (s : String) : String :=
  String.mk (s.data.map Char.toLower)

/-- `String.prototype.startsWith`. -/
def jsStartsWith (s p : String) : Bool :=
  p.data.isPrefixOf s.data

/-- `String.prototype.trim`. -/
def jsTrim (s : String) : String :=
  String.mk (((s.data.dropWhile isSpaceChar).reverse.dropWhile isSpaceChar).reverse)

/-- `String.prototype.substring(0, n)`. -/
def jsTake (s : String) (n : Nat) : String :=
  String.mk (s.data.take n)

/-- `Array.prototype.slice(start, stop)` with JS negative-index and clamping
semantics. -/
def jsSlice {α : Type} (l : List α) (start stop : Int) : List α :=
  let len : Int := l.length
  let s := if start < 0 then max (len + start) 0 else min start len
  let e := if stop < 0 then max (len + stop) 0 else min stop len
  (l.drop s.toNat).take (e - s).toNat

/-! ## Data model: file changes and conversations -/

/-- `PRFile` (fields used by the embedded core). `old_contents`/`current_contents`
are `none` when the content fetch failed (JS `null`). -/
structure PRFile where
  filename : String
  patch : String
  old_contents : Option String := none
  current_contents : Option String := none
  patchTokenLength : Nat := 0
deriving DecidableEq

/-- One role-tagged message of a conversation sent to the completion service. -/
structure ChatMessage where
  role : String
  content : String
deriving DecidableEq

/-- `prompts.ts` `constructPrompt`: render every file with the patch builder, join
with newlines, wrap with the conversation builder. -/
def constructPrompt (files : List PRFile) (patchBuilder : PRFile → String)
    (convoBuilder : String → List ChatMessage) : List ChatMessage :=
  convoBuilder (strJoin "\n" (files.map patchBuilder))

/-- `prompts.ts` `ModelsToTokenLimits` (a record; `none` models a missing key). -/
def ModelsToTokenLimits (model : String) : Option Nat :=
  if model = "llama-3.3-70b-versatile" then some 128000
  else if model = "gemma-7b-it" then some 32768
  else if model = "llama3-70b-8192" then some 8192
  else none

/-- `prompts.ts` `isConversationWithinLimit`. The tokenizer `encodeChat` is an
external library, passed as `encodeChatLen`. A missing model key makes the JS
comparison `tokens < undefined` evaluate to `false`. -/
def isConversationWithinLimit (encodeChatLen : List ChatMessage → Nat)
    (convo : List ChatMessage) (model : String) : Bool :=
  match ModelsToTokenLimits model with
  | some cap => encodeChatLen convo < cap
  | none => false

/-! ## File filtering (`filterFile`) -/

def filesToIgnore : List String :=
  ["package-lock.json", "yarn.lock", ".gitignore", "package.json",
   "tsconfig.json", "poetry.lock", "readme.md"]

def extensionsToIgnore : List String :=
  ["pdf", "png", "jpg", "jpeg", "gif", "mp4", "mp3", "md", "json", "env",
   "toml", "svg"]

/-- `review-agent.ts` `filterFile`. -/
def filterFile (file : PRFile) : Bool :=
  let filename := (strSplit (jsToLower file.filename) '/').getLastD ""
  if filename != "" && filesToIgnore.contains filename then false
  else
    let splitFilename := strSplit (jsToLower file.filename) '.'
    if splitFilename.length ≤ 1 then false
    else
      let extension := jsToLower (splitFilename.getLastD "")
      if extension != "" && extensionsToIgnore.contains extension then false
      else true

/-! ## Batch planner -/

/-- The grouping key of `groupFilesByExtension`:
`file.filename.split(".").pop()?.toLowerCase()`. -/
def jsExtension (f : PRFile) : String :=
  jsToLower ((strSplit f.filename '.').getLastD "")

/-- Insertion into the extension map: JS `Map` keeps first-insertion key order and
pushes onto the existing bucket. -/
def addToGroups (m : List (String × List PRFile)) (ext : String) (f : PRFile) :
    List (String × List PRFile) :=
  match m with
  | [] => [(ext, [f])]
  | (e, fs) :: rest =>
    if e = ext then (e, fs ++ [f]) :: rest
    else (e, fs) :: addToGroups rest ext f

/-- One `forEach` step of `groupFilesByExtension`. A file whose extension key is
the empty string fails the JS truthiness guard `if (extension)` and is not added
to any bucket. -/
def extGroupStep (m : List (String × List PRFile)) (file : PRFile) :
    List (String × List PRFile) :=
  if jsExtension file = "" then m else addToGroups m (jsExtension file) file

/-- `review-agent.ts` `groupFilesByExtension`. -/
def groupFilesByExtension (files : List PRFile) : List (String × List PRFile) :=
  files.foldl extGroupStep []

/-- Stable ascending sort by `patchTokenLength`
(`filesForExt.sort((a, b) => a.patchTokenLength - b.patchTokenLength)`). -/
def insertSorted (f : PRFile) : List PRFile → List PRFile
  | [] => [f]
  | g :: rest =>
    if g.patchTokenLength ≤ f.patchTokenLength then g :: insertSorted f rest
    else f :: g :: rest

def sortByTokenLength (files : List PRFile) : List PRFile :=
  files.foldl (fun acc f => insertSorted f acc) []

/-- The greedy packing loop of `processWithinLimitFiles`: grow `currentGroup` while
the candidate conversation fits; on overflow close the group and seed the next
with the overflowing file; push a trailing non-empty group.
`fits g` models `isConversationWithinLimit(constructPrompt(g, patchBuilder, convoBuilder))`. -/
def greedyStep (fits : List PRFile → Bool)
    (acc : List (List PRFile) × List PRFile) (file : PRFile) :
    List (List PRFile) × List PRFile :=
  if fits (acc.2 ++ [file]) then (acc.1, acc.2 ++ [file])
  else (acc.1 ++ [acc.2], [file])

def greedyPack (fits : List PRFile → Bool) (files : List PRFile) :
    List (List PRFile) :=
  let r := files.foldl (greedyStep fits) ([], [])
  if 0 < r.2.length then r.1 ++ [r.2] else r.1

/-- One step of the extension-group loop of `processWithinLimitFiles`: a group
fitting as a unit becomes one batch; otherwise it is sorted and greedily
packed. -/
def bucketStep (fits : List PRFile → Bool) (processGroups : List (List PRFile))
    (p : String × List PRFile) : List (List PRFile) :=
  if fits p.2 then processGroups ++ [p.2]
  else processGroups ++ greedyPack fits (sortByTokenLength p.2)

/-- `review-agent.ts` `processWithinLimitFiles`. -/
def processWithinLimitFiles (fits : List PRFile → Bool) (files : List PRFile) :
    List (List PRFile) :=
  if !(fits files) then
    (groupFilesByExtension files).foldl (bucketStep fits) []
  else [files]

/-- `review-agent.ts` `stripRemovedLines`: drop every patch line starting with
`-`. -/
def stripRemovedLines (originalFile : PRFile) : PRFile :=
  { originalFile with
    patch := strJoin "\n"
      ((strSplit originalFile.patch '\n').filter
        (fun line => !(jsStartsWith line "-"))) }

/-- `review-agent.ts` `processOutsideLimitFiles` (the produced groups). -/
def processOutsideLimitFiles (fits : List PRFile → Bool) (files : List PRFile) :
    List (List PRFile) :=
  if files.length == 0 then []
  else
    let files := files.map stripRemovedLines
    if fits files then [files]
    else
      let withinLimits := files.filter (fun file => fits [file])
      processWithinLimitFiles fits withinLimits

/-- The `exceedingLimits` set computed inside `processOutsideLimitFiles`: files
that, even with removal lines stripped, do not fit alone. They produce no group
(the oversized-file exclusion path). -/
def excludedOversized (fits : List PRFile → Bool) (files : List PRFile) :
    List PRFile :=
  if files.length == 0 then []
  else
    let files := files.map stripRemovedLines
    if fits files then []
    else files.filter (fun file => !(fits [file]))

/-- The batch-planning portion of `review-agent.ts` `reviewChanges`: filter,
attach the cached token length (`tokLen` models
`getTokenLength(patchBuilder(file))`), partition by the single-file limit check,
then plan both partitions. -/
def reviewChangesGroups (fits : List PRFile → Bool) (tokLen : PRFile → Nat)
    (files : List PRFile) : List (List PRFile) :=
  let filteredFiles :=
    (files.filter filterFile).map (fun f => { f with patchTokenLength := tokLen f })
  let patchesWithinModelLimit := filteredFiles.filter (fun file => fits [file])
  let patchesOutsideModelLimit := filteredFiles.filter (fun file => !(fits [file]))
  processWithinLimitFiles fits patchesWithinModelLimit ++
    processOutsideLimitFiles fits patchesOutsideModelLimit

/-- The files excluded by the oversized path during `reviewChanges` batching. -/
def reviewChangesExcluded (fits : List PRFile → Bool) (tokLen : PRFile → Nat)
    (files : List PRFile) : List PRFile :=
  let filteredFiles :=
    (files.filter filterFile).map (fun f => { f with patchTokenLength := tokLen f })
  let patchesOutsideModelLimit := filteredFiles.filter (fun file => !(fits [file]))
  excludedOversized fits patchesOutsideModelLimit


/-! ## Batch-planner lemmas -/

theorem filename_strip (f : PRFile) : (stripRemovedLines f).filename = f.filename := rfl

theorem jsExtension_strip (f : PRFile) : jsExtension (stripRemovedLines f) = jsExtension f := rfl

theorem filterFile_strip (f : PRFile) : filterFile (stripRemovedLines f) = filterFile f := rfl

theorem flatten_addToGroups (m : List (String × List PRFile)) (ext : String) (f : PRFile) :
    (((addToGroups m ext f).map Prod.snd).flatten).Perm
      (((m.map Prod.snd).flatten) ++ [f]) := by
  induction m with
  | nil => simp [addToGroups]
  | cons p rest ih =>
    obtain ⟨e, fs⟩ := p
    by_cases h : e = ext
    · simp only [addToGroups, if_pos h, List.map_cons, List.flatten_cons]
      rw [List.append_assoc, List.append_assoc]
      exact List.Perm.append_left fs List.perm_append_comm
    · simp only [addToGroups, if_neg h, List.map_cons, List.flatten_cons]
      rw [List.append_assoc]
      exact List.Perm.append_left fs ih

theorem mem_addToGroups_nonempty {m : List (String × List PRFile)} {ext : String}
    {f : PRFile} (hm : ∀ q ∈ m, q.2 ≠ []) :
    ∀ q ∈ addToGroups m ext f, q.2 ≠ [] := by
  induction m with
  | nil =>
    intro q hq
    simp only [addToGroups, List.mem_singleton] at hq
    subst hq; simp
  | cons p rest ih =>
    obtain ⟨e, fs⟩ := p
    intro q hq
    by_cases h : e = ext
    · simp only [addToGroups, if_pos h, List.mem_cons] at hq
      rcases hq with hq | hq
      · subst hq; simp
      · exact hm q (List.mem_cons_of_mem _ hq)
    · simp only [addToGroups, if_neg h, List.mem_cons] at hq
      rcases hq with hq | hq
      · subst hq; exact hm _ (List.mem_cons_self _ _)
      · exact ih (fun r hr => hm r (List.mem_cons_of_mem _ hr)) q hq

theorem groupFold_perm (files : List PRFile) :
    ∀ m : List (String × List PRFile),
      ((((files.foldl extGroupStep m)).map Prod.snd).flatten).Perm
        (((m.map Prod.snd).flatten) ++ files.filter (fun f => jsExtension f != "")) := by
  induction files with
  | nil => intro m; simp
  | cons f rest ih =>
    intro m
    simp only [List.foldl_cons]
    by_cases h : jsExtension f = ""
    · have hf : (jsExtension f != "") = false := by simp [h]
      rw [List.filter_cons, hf]
      simp only [extGroupStep, if_pos h]
      exact ih m
    · have hf : (jsExtension f != "") = true := by simp [h]
      rw [List.filter_cons, hf]
      simp only [extGroupStep, if_neg h, if_pos]
      refine (ih (addToGroups m (jsExtension f) f)).trans ?_
      refine (List.Perm.append_right _ (flatten_addToGroups m (jsExtension f) f)).trans ?_
      simp only [List.append_assoc, List.singleton_append]
      exact List.Perm.refl _

theorem groupFilesByExtension_flatten_perm (files : List PRFile) :
    (((groupFilesByExtension files).map Prod.snd).flatten).Perm
      (files.filter (fun f => jsExtension f != "")) := by
  simpa [groupFilesByExtension] using groupFold_perm files []

theorem mem_of_mem_bucket {files : List PRFile} {p : String × List PRFile} {f : PRFile}
    (hp : p ∈ groupFilesByExtension files) (hf : f ∈ p.2) : f ∈ files := by
  have hmem : f ∈ ((groupFilesByExtension files).map Prod.snd).flatten :=
    List.mem_flatten.mpr ⟨p.2, List.mem_map_of_mem Prod.snd hp, hf⟩
  have := (groupFilesByExtension_flatten_perm files).mem_iff.mp hmem
  exact List.mem_of_mem_filter this

theorem bucket_nonempty {files : List PRFile} {p : String × List PRFile}
    (hp : p ∈ groupFilesByExtension files) : p.2 ≠ [] := by
  unfold groupFilesByExtension at hp
  suffices h : ∀ m : List (String × List PRFile), (∀ q ∈ m, q.2 ≠ []) →
      ∀ q ∈ files.foldl extGroupStep m, q.2 ≠ [] by
    exact h [] (by simp) p hp
  clear hp
  induction files with
  | nil => intro m hm q hq; exact hm q hq
  | cons f rest ih =>
    intro m hm q hq
    simp only [List.foldl_cons] at hq
    by_cases h : jsExtension f = ""
    · rw [extGroupStep, if_pos h] at hq
      exact ih m hm q hq
    · rw [extGroupStep, if_neg h] at hq
      exact ih _ (mem_addToGroups_nonempty hm) q hq

theorem insertSorted_perm (f : PRFile) (l : List PRFile) :
    (insertSorted f l).Perm (f :: l) := by
  induction l with
  | nil => simp [insertSorted]
  | cons g rest ih =>
    by_cases h : g.patchTokenLength ≤ f.patchTokenLength
    · simp only [insertSorted, if_pos h]
      exact (ih.cons g).trans (List.Perm.swap f g rest)
    · simp only [insertSorted, if_neg h]
      exact List.Perm.refl _

theorem sortByTokenLength_perm (files : List PRFile) :
    (sortByTokenLength files).Perm files := by
  suffices h : ∀ acc : List PRFile,
      (files.foldl (fun acc f => insertSorted f acc) acc).Perm (acc ++ files) by
    simpa using h []
  induction files with
  | nil => intro acc; simp
  | cons f rest ih =>
    intro acc
    simp only [List.foldl_cons]
    refine (ih (insertSorted f acc)).trans ?_
    refine (List.Perm.append_right rest (insertSorted_perm f acc)).trans ?_
    exact List.perm_middle.symm

theorem greedyFold_flatten (fits : List PRFile → Bool) (files : List PRFile) :
    ∀ gs : List (List PRFile), ∀ cg : List PRFile,
      ((files.foldl (greedyStep fits) (gs, cg)).1).flatten ++
          (files.foldl (greedyStep fits) (gs, cg)).2 =
        gs.flatten ++ cg ++ files := by
  induction files with
  | nil => intro gs cg; simp
  | cons f rest ih =>
    intro gs cg
    simp only [List.foldl_cons]
    by_cases h : fits (cg ++ [f]) = true
    · rw [greedyStep, if_pos h]
      rw [ih gs (cg ++ [f])]
      simp
    · rw [greedyStep, if_neg (by simpa using h)]
      rw [ih (gs ++ [cg]) [f]]
      simp

theorem greedyPack_flatten (fits : List PRFile → Bool) (files : List PRFile) :
    (greedyPack fits files).flatten = files := by
  unfold greedyPack
  have h := greedyFold_flatten fits files [] []
  simp only [List.flatten_nil, List.nil_append] at h
  by_cases hc : 0 < (files.foldl (greedyStep fits) ([], [])).2.length
  · rw [if_pos hc]
    simpa using h
  · rw [if_neg hc]
    have h2 : (files.foldl (greedyStep fits) ([], [])).2 = [] := by
      cases hval : (files.foldl (greedyStep fits) ([], [])).2 with
      | nil => rfl
      | cons a t => rw [hval] at hc; simp at hc
    rw [h2, List.append_nil] at h
    exact h

theorem greedyFold_inv (fits : List PRFile → Bool) (files : List PRFile)
    (hfits : ∀ f ∈ files, fits [f] = true) :
    ∀ gs : List (List PRFile), ∀ cg : List PRFile,
      (∀ g ∈ gs, g ≠ [] ∧ fits g = true) → (cg = [] ∨ fits cg = true) →
      (∀ g ∈ (files.foldl (greedyStep fits) (gs, cg)).1, g ≠ [] ∧ fits g = true) ∧
        ((files.foldl (greedyStep fits) (gs, cg)).2 = [] ∨
          fits (files.foldl (greedyStep fits) (gs, cg)).2 = true) := by
  induction files with
  | nil => intro gs cg hgs hcg; exact ⟨hgs, hcg⟩
  | cons f rest ih =>
    intro gs cg hgs hcg
    have hf : fits [f] = true := hfits f (List.mem_cons_self _ _)
    have hrest : ∀ g ∈ rest, fits [g] = true :=
      fun g hg => hfits g (List.mem_cons_of_mem _ hg)
    simp only [List.foldl_cons]
    by_cases h : fits (cg ++ [f]) = true
    · rw [greedyStep, if_pos h]
      exact ih hrest gs (cg ++ [f]) hgs (Or.inr h)
    · rw [greedyStep, if_neg (by simpa using h)]
      have hcgne : cg ≠ [] := by
        intro hnil
        rw [hnil, List.nil_append] at h
        exact h hf
      have hcgfits : fits cg = true := by
        rcases hcg with hcg | hcg
        · exact absurd hcg hcgne
        · exact hcg
      refine ih hrest (gs ++ [cg]) [f] ?_ (Or.inr hf)
      intro g hg
      rcases List.mem_append.mp hg with hg | hg
      · exact hgs g hg
      · rw [List.mem_singleton] at hg
        subst hg
        exact ⟨hcgne, hcgfits⟩

theorem greedyPack_inv (fits : List PRFile → Bool) (files : List PRFile)
    (hfits : ∀ f ∈ files, fits [f] = true) :
    ∀ g ∈ greedyPack fits files, g ≠ [] ∧ fits g = true := by
  intro g hg
  unfold greedyPack at hg
  have hinv := greedyFold_inv fits files hfits [] [] (by simp) (Or.inl rfl)
  by_cases hc : 0 < (files.foldl (greedyStep fits) ([], [])).2.length
  · rw [if_pos hc] at hg
    rcases List.mem_append.mp hg with hg | hg
    · exact hinv.1 g hg
    · rw [List.mem_singleton] at hg
      subst hg
      rcases hinv.2 with h2 | h2
      · rw [h2] at hc; simp at hc
      · have : (files.foldl (greedyStep fits) ([], [])).2 ≠ [] := by
          intro hnil; rw [hnil] at hc; simp at hc
        exact ⟨this, h2⟩
  · rw [if_neg hc] at hg
    exact hinv.1 g hg

theorem bucketFold_flatten_perm (fits : List PRFile → Bool)
    (buckets : List (String × List PRFile)) :
    ∀ acc : List (List PRFile),
      ((buckets.foldl (bucketStep fits) acc).flatten).Perm
        (acc.flatten ++ ((buckets.map Prod.snd).flatten)) := by
  induction buckets with
  | nil => intro acc; simp
  | cons p rest ih =>
    intro acc
    simp only [List.foldl_cons, List.map_cons, List.flatten_cons]
    by_cases h : fits p.2 = true
    · rw [bucketStep, if_pos h]
      refine (ih (acc ++ [p.2])).trans ?_
      simp only [List.flatten_append, List.flatten_cons, List.flatten_nil,
        List.append_nil, List.append_assoc]
      exact List.Perm.refl _
    · rw [bucketStep, if_neg (by simpa using h)]
      refine (ih (acc ++ greedyPack fits (sortByTokenLength p.2))).trans ?_
      simp only [List.flatten_append, List.append_assoc]
      refine List.Perm.append_left acc.flatten ?_
      refine List.Perm.append ?_ (List.Perm.refl _)
      rw [greedyPack_flatten]
      exact sortByTokenLength_perm p.2

theorem mem_bucketFold (fits : List PRFile → Bool)
    (buckets : List (String × List PRFile)) :
    ∀ acc : List (List PRFile), ∀ g ∈ buckets.foldl (bucketStep fits) acc,
      g ∈ acc ∨ ∃ p ∈ buckets,
        (fits p.2 = true ∧ g = p.2) ∨
        (fits p.2 = false ∧ g ∈ greedyPack fits (sortByTokenLength p.2)) := by
  induction buckets with
  | nil => intro acc g hg; exact Or.inl hg
  | cons p rest ih =>
    intro acc g hg
    simp only [List.foldl_cons] at hg
    by_cases h : fits p.2 = true
    · rw [bucketStep, if_pos h] at hg
      rcases ih (acc ++ [p.2]) g hg with hg | ⟨q, hq, hgq⟩
      · rcases List.mem_append.mp hg with hg | hg
        · exact Or.inl hg
        · rw [List.mem_singleton] at hg
          exact Or.inr ⟨p, List.mem_cons_self _ _, Or.inl ⟨h, hg⟩⟩
      · exact Or.inr ⟨q, List.mem_cons_of_mem _ hq, hgq⟩
    · rw [bucketStep, if_neg (by simpa using h)] at hg
      rcases ih _ g hg with hg | ⟨q, hq, hgq⟩
      · rcases List.mem_append.mp hg with hg | hg
        · exact Or.inl hg
        · exact Or.inr ⟨p, List.mem_cons_self _ _,
            Or.inr ⟨Bool.eq_false_iff.mpr h, hg⟩⟩
      · exact Or.inr ⟨q, List.mem_cons_of_mem _ hq, hgq⟩

theorem processWithinLimitFiles_flatten_perm (fits : List PRFile → Bool)
    (files : List PRFile) (hext : ∀ f ∈ files, jsExtension f ≠ "") :
    ((processWithinLimitFiles fits files).flatten).Perm files := by
  unfold processWithinLimitFiles
  by_cases h : fits files = true
  · rw [if_neg (by simp [h])]
    simp
  · rw [if_pos (by simp [h])]
    refine (bucketFold_flatten_perm fits (groupFilesByExtension files) []).trans ?_
    simp only [List.flatten_nil, List.nil_append]
    refine (groupFilesByExtension_flatten_perm files).trans ?_
    rw [List.filter_eq_self.mpr]
    intro f hf
    simpa using hext f hf

theorem mem_processWithinLimitFiles {fits : List PRFile → Bool}
    {files : List PRFile} {g : List PRFile} {f : PRFile}
    (hg : g ∈ processWithinLimitFiles fits files) (hf : f ∈ g) : f ∈ files := by
  unfold processWithinLimitFiles at hg
  by_cases h : fits files = true
  · rw [if_neg (by simp [h])] at hg
    rw [List.mem_singleton] at hg
    subst hg; exact hf
  · rw [if_pos (by simp [h])] at hg
    rcases mem_bucketFold fits (groupFilesByExtension files) [] g hg with hg | ⟨p, hp, hgp⟩
    · simp at hg
    · rcases hgp with ⟨_, hgp⟩ | ⟨_, hgp⟩
      · exact mem_of_mem_bucket hp (hgp ▸ hf)
      · have hfl : f ∈ (greedyPack fits (sortByTokenLength p.2)).flatten :=
          List.mem_flatten.mpr ⟨g, hgp, hf⟩
        rw [greedyPack_flatten] at hfl
        have := (sortByTokenLength_perm p.2).mem_iff.mp hfl
        exact mem_of_mem_bucket hp this

theorem processWithinLimitFiles_inv (fits : List PRFile → Bool)
    (files : List PRFile) (hfits : ∀ f ∈ files, fits [f] = true)
    (hne : files ≠ []) :
    ∀ g ∈ processWithinLimitFiles fits files, g ≠ [] ∧ fits g = true := by
  intro g hg
  unfold processWithinLimitFiles at hg
  by_cases h : fits files = true
  · rw [if_neg (by simp [h])] at hg
    rw [List.mem_singleton] at hg
    subst hg
    exact ⟨hne, h⟩
  · rw [if_pos (by simp [h])] at hg
    rcases mem_bucketFold fits (groupFilesByExtension files) [] g hg with hg | ⟨p, hp, hgp⟩
    · simp at hg
    · rcases hgp with ⟨hfit, hgp⟩ | ⟨_, hgp⟩
      · subst hgp
        exact ⟨bucket_nonempty hp, hfit⟩
      · refine greedyPack_inv fits (sortByTokenLength p.2) ?_ g hgp
        intro f hf
        exact hfits f (mem_of_mem_bucket hp ((sortByTokenLength_perm p.2).mem_iff.mp hf))

theorem processOutsideLimitFiles_perm (fits : List PRFile → Bool)
    (files : List PRFile) (hext : ∀ f ∈ files, jsExtension f ≠ "") :
    ((processOutsideLimitFiles fits files).flatten ++ excludedOversized fits files).Perm
      (files.map stripRemovedLines) := by
  unfold processOutsideLimitFiles excludedOversized
  by_cases hlen : files.length == 0
  · rw [if_pos hlen, if_pos hlen]
    have : files = [] := by
      cases files with
      | nil => rfl
      | cons a t => simp at hlen
    subst this
    simp
  · rw [if_neg hlen, if_neg hlen]
    by_cases hfit : fits (files.map stripRemovedLines) = true
    · rw [if_pos hfit, if_pos hfit]
      simp
    · rw [if_neg hfit, if_neg hfit]
      have hext' : ∀ f ∈ (files.map stripRemovedLines).filter (fun file => fits [file]),
          jsExtension f ≠ "" := by
        intro f hf
        have hf' := List.mem_of_mem_filter hf
        obtain ⟨f0, hf0, rfl⟩ := List.mem_map.mp hf'
        rw [jsExtension_strip]
        exact hext f0 hf0
      refine List.Perm.append_right _
        (processWithinLimitFiles_flatten_perm fits _ hext') |>.trans ?_
      exact List.filter_append_perm _ (files.map stripRemovedLines)

theorem mem_processOutsideLimitFiles {fits : List PRFile → Bool}
    {files : List PRFile} {g : List PRFile} {f : PRFile}
    (hg : g ∈ processOutsideLimitFiles fits files) (hf : f ∈ g) :
    ∃ f0 ∈ files, f = stripRemovedLines f0 := by
  unfold processOutsideLimitFiles at hg
  by_cases hlen : files.length == 0
  · rw [if_pos hlen] at hg
    simp at hg
  · rw [if_neg hlen] at hg
    by_cases hfit : fits (files.map stripRemovedLines) = true
    · rw [if_pos hfit] at hg
      rw [List.mem_singleton] at hg
      subst hg
      obtain ⟨f0, hf0, rfl⟩ := List.mem_map.mp hf
      exact ⟨f0, hf0, rfl⟩
    · rw [if_neg hfit] at hg
      have := mem_processWithinLimitFiles hg hf
      have := List.mem_of_mem_filter this
      obtain ⟨f0, hf0, rfl⟩ := List.mem_map.mp this
      exact ⟨f0, hf0, rfl⟩

theorem filename_update (f : PRFile) (n : Nat) :
    ({ f with patchTokenLength := n } : PRFile).filename = f.filename := rfl

theorem jsExtension_update (f : PRFile) (n : Nat) :
    jsExtension { f with patchTokenLength := n } = jsExtension f := rfl

/-- Core coverage fact at the level of `reviewChanges`: the filenames in the
produced groups plus the filenames excluded on the oversized path are a
permutation of the filtered input filenames, provided no filtered filename has an
empty final extension segment. -/
theorem reviewChanges_coverage_perm (fits : List PRFile → Bool)
    (tokLen : PRFile → Nat) (files : List PRFile)
    (hext : ∀ f ∈ files.filter filterFile, jsExtension f ≠ "") :
    (((reviewChangesGroups fits tokLen files).flatten.map PRFile.filename) ++
        ((reviewChangesExcluded fits tokLen files).map PRFile.filename)).Perm
      ((files.filter filterFile).map PRFile.filename) := by
  unfold reviewChangesGroups reviewChangesExcluded
  set mapped := (files.filter filterFile).map
    (fun f => { f with patchTokenLength := tokLen f }) with hmapped
  have hextm : ∀ f ∈ mapped, jsExtension f ≠ "" := by
    intro f hf
    obtain ⟨f0, hf0, rfl⟩ := List.mem_map.mp hf
    rw [jsExtension_update]
    exact hext f0 hf0
  have hwithin : ∀ f ∈ mapped.filter (fun file => fits [file]), jsExtension f ≠ "" :=
    fun f hf => hextm f (List.mem_of_mem_filter hf)
  have houtside : ∀ f ∈ mapped.filter (fun file => !(fits [file])), jsExtension f ≠ "" :=
    fun f hf => hextm f (List.mem_of_mem_filter hf)
  have h1 := processWithinLimitFiles_flatten_perm fits
    (mapped.filter (fun file => fits [file])) hwithin
  have h2 := processOutsideLimitFiles_perm fits
    (mapped.filter (fun file => !(fits [file]))) houtside
  have hnames : ((processWithinLimitFiles fits (mapped.filter (fun file => fits [file]))).flatten ++
      ((processOutsideLimitFiles fits (mapped.filter (fun file => !(fits [file])))).flatten ++
        excludedOversized fits (mapped.filter (fun file => !(fits [file]))))).Perm
      ((mapped.filter (fun file => fits [file])) ++
        ((mapped.filter (fun file => !(fits [file]))).map stripRemovedLines)) :=
    List.Perm.append h1 h2
  have hmap := hnames.map PRFile.filename
  refine List.Perm.trans ?_ (List.Perm.trans hmap ?_)
  · rw [List.flatten_append]
    simp [List.map_append, List.append_assoc]
  · rw [List.map_append]
    have hstripnames :
        (((mapped.filter (fun file => !(fits [file]))).map stripRemovedLines).map PRFile.filename) =
          ((mapped.filter (fun file => !(fits [file]))).map PRFile.filename) := by
      rw [List.map_map]
      exact List.map_congr_left (fun f _ => filename_strip f)
    rw [hstripnames, ← List.map_append]
    have hpart : ((mapped.filter (fun file => fits [file])) ++
        (mapped.filter (fun file => !(fits [file])))).Perm mapped :=
      List.filter_append_perm _ mapped
    refine (hpart.map PRFile.filename).trans ?_
    rw [hmapped, List.map_map]
    exact (List.map_congr_left (fun f _ => filename_update f (tokLen f))) ▸ List.Perm.refl _

/-! ## Claims C2 and C3: coverage and budget invariants of the batch planner -/

/-- C2 (as stated, refuted): the claim asserts that for EVERY filtered input set
the union of the produced groups plus the oversized-excluded set equals the
filtered input. With the two filtered files `a.ts.` and `b.ts` and a budget under
which each file fits alone but not both together, `groupFilesByExtension` drops
`a.ts.` (its extension key `split(".").pop()` is the empty string, which fails
the JS truthiness guard), so `a.ts.` appears in no group and in no exclusion:
the planner output covers only `b.ts` while the filtered input had both files. -/
theorem batch_coverage_counterexample :
    (((reviewChangesGroups (fun l => decide (l.length ≤ 1)) (fun _ => 0)
          [{ filename := "a.ts.", patch := "" }, { filename := "b.ts", patch := "" }]).flatten.map
            PRFile.filename) ++
        ((reviewChangesExcluded (fun l => decide (l.length ≤ 1)) (fun _ => 0)
          [{ filename := "a.ts.", patch := "" }, { filename := "b.ts", patch := "" }]).map
            PRFile.filename)) = ["b.ts"] ∧
      (([({ filename := "a.ts.", patch := "" } : PRFile),
          { filename := "b.ts", patch := "" }].filter filterFile).map PRFile.filename) =
        ["a.ts.", "b.ts"] := by
  exact ⟨by decide, by decide⟩

/-- C2 (amended): for every filtered input file set in which no filename has an
empty final `.`-separated segment, the filenames across all produced groups plus
the filenames excluded via the oversized-file path are exactly (a permutation of)
the filtered input filenames; and, given the filtered filenames are distinct, no
filename occurs in more than one produced group (nor twice in one). -/
theorem batch_coverage_invariant (fits : List PRFile → Bool)
    (tokLen : PRFile → Nat) (files : List PRFile)
    (hext : ∀ f ∈ files.filter filterFile, jsExtension f ≠ "")
    (hnd : ((files.filter filterFile).map PRFile.filename).Nodup) :
    (((reviewChangesGroups fits tokLen files).flatten.map PRFile.filename) ++
        ((reviewChangesExcluded fits tokLen files).map PRFile.filename)).Perm
      ((files.filter filterFile).map PRFile.filename) ∧
      ((reviewChangesGroups fits tokLen files).flatten.map PRFile.filename).Nodup := by
  have hperm := reviewChanges_coverage_perm fits tokLen files hext
  refine ⟨hperm, ?_⟩
  have hcombined := (hperm.nodup_iff).mpr hnd
  exact List.Nodup.of_append_left hcombined

theorem batch_coverage_witness :
    (((reviewChangesGroups (fun l => decide (l.length ≤ 1)) (fun _ => 0)
          [{ filename := "b.ts", patch := "" }]).flatten.map PRFile.filename) ++
        ((reviewChangesExcluded (fun l => decide (l.length ≤ 1)) (fun _ => 0)
          [{ filename := "b.ts", patch := "" }]).map PRFile.filename)).Perm
      (([({ filename := "b.ts", patch := "" } : PRFile)].filter filterFile).map
        PRFile.filename) ∧
      ((reviewChangesGroups (fun l => decide (l.length ≤ 1)) (fun _ => 0)
          [{ filename := "b.ts", patch := "" }]).flatten.map PRFile.filename).Nodup :=
  batch_coverage_invariant (fun l => decide (l.length ≤ 1)) (fun _ => 0)
    [{ filename := "b.ts", patch := "" }] (by decide) (by decide)

/-- C3 (as stated, refuted): the claim asserts every produced group is non-empty
under the precondition that every input file individually fits — a precondition
that holds vacuously for the empty input list, on which
`processWithinLimitFiles` nevertheless pushes the whole (empty) input as one
group because the empty conversation is within the model limit. -/
theorem batch_budget_counterexample :
    [] ∈ processWithinLimitFiles
      (fun fs => isConversationWithinLimit (fun _ => 0)
        (constructPrompt fs (fun f => f.patch) (fun d => [{ role := "user", content := d }]))
        "llama3-70b-8192")
      ([] : List PRFile) := by
  decide

/-- C3 (amended): for a NON-EMPTY file list every file of which individually fits
the active model's budget, every group produced by `processWithinLimitFiles` is
non-empty and its rendered conversation's token estimate is strictly below the
model's capacity from the per-model limit table. -/
theorem batch_budget_invariant (encodeChatLen : List ChatMessage → Nat)
    (model : String) (cap : Nat) (patchBuilder : PRFile → String)
    (convoBuilder : String → List ChatMessage) (files : List PRFile)
    (hmodel : ModelsToTokenLimits model = some cap)
    (hfits : ∀ f ∈ files, isConversationWithinLimit encodeChatLen
      (constructPrompt [f] patchBuilder convoBuilder) model = true)
    (hne : files ≠ []) :
    ∀ g ∈ processWithinLimitFiles
        (fun fs => isConversationWithinLimit encodeChatLen
          (constructPrompt fs patchBuilder convoBuilder) model)
        files,
      g ≠ [] ∧ encodeChatLen (constructPrompt g patchBuilder convoBuilder) < cap := by
  intro g hg
  have := processWithinLimitFiles_inv
    (fun fs => isConversationWithinLimit encodeChatLen
      (constructPrompt fs patchBuilder convoBuilder) model)
    files hfits hne g hg
  refine ⟨this.1, ?_⟩
  have h2 := this.2
  unfold isConversationWithinLimit at h2
  rw [hmodel] at h2
  simpa using h2

theorem batch_budget_witness :
    [({ filename := "b.ts", patch := "" } : PRFile)] ≠ [] ∧
      (fun _ => 0 : List ChatMessage → Nat)
        (constructPrompt [{ filename := "b.ts", patch := "" }]
          (fun f => f.patch) (fun d => [{ role := "user", content := d }])) < 8192 :=
  batch_budget_invariant (fun _ => 0) "llama3-70b-8192" 8192
    (fun f => f.patch) (fun d => [{ role := "user", content := d }])
    [{ filename := "b.ts", patch := "" }] (by decide) (by decide) (by decide)
    [{ filename := "b.ts", patch := "" }] (by decide)

/-! ## Suggestions and the review orchestration -/

/-- `PRSuggestionImpl` constructor fields, in constructor order
`(describe, type, comment, code, filename)`. -/
structure PRSuggestion where
  describe : String
  type : String
  comment : String
  code : String
  filename : String
deriving DecidableEq

/-- `BuilderResponse`: the rendered comment body plus the structured suggestion
side-channel. -/
structure BuilderResponse where
  comment : String
  structuredComments : List PRSuggestion
deriving DecidableEq

/-- `Promise.all` over the per-group review requests: every request is issued;
the aggregate rejects if any single request rejects. -/
def promiseAll (reviewF : List PRFile → Except String String) :
    List (List PRFile) → Except String (List String)
  | [] => Except.ok []
  | g :: gs =>
    match reviewF g with
    | Except.error e => Except.error e
    | Except.ok r =>
      match promiseAll reviewF gs with
      | Except.error e => Except.error e
      | Except.ok rs => Except.ok (r :: rs)

/-- `review-agent.ts` `reviewChanges`. Failures are `Except.error`. `reviewF`
models `reviewFiles` (one completion call per group, patch/conversation builders
baked in); `responseBuilder` is the response-parsing strategy. The outer
`try/catch` turns a rejected `Promise.all` into a fallback `BuilderResponse`;
the inner `try/catch` does the same for a throwing response builder. -/
def reviewChanges (fits : List PRFile → Bool) (tokLen : PRFile → Nat)
    (reviewF : List PRFile → Except String String)
    (responseBuilder : List String → Except String BuilderResponse)
    (files : List PRFile) : Except String BuilderResponse :=
  let groups := reviewChangesGroups fits tokLen files
  match promiseAll reviewF groups with
  | Except.error _ =>
    Except.ok { comment := "Error occurred during review process",
                structuredComments := [] }
  | Except.ok feedbacks =>
    match responseBuilder feedbacks with
    | Except.error _ =>
      Except.ok { comment := "Unable to process XML response correctly. Review generated but parsing failed.",
                  structuredComments := [] }
    | Except.ok r => Except.ok r

/-- One `Builders` entry of `reviewChangesRetry`. The `convoBuilder` of the
source appears here through its two uses: the token-limit check (`fits`) and
the completion request (`reviewF`). -/
structure Builder where
  fits : List PRFile → Bool
  reviewF : List PRFile → Except String String
  responseBuilder : List String → Except String BuilderResponse

/-- `review-agent.ts` `reviewChangesRetry`: try each strategy pair in order,
return the first non-throwing result, and throw `All convoBuilders failed.`
only when the list is exhausted. -/
def reviewChangesRetry (tokLen : PRFile → Nat) (files : List PRFile) :
    List Builder → Except String BuilderResponse
  | [] => Except.error "All convoBuilders failed."
  | b :: rest =>
    match reviewChanges b.fits tokLen b.reviewF b.responseBuilder files with
    | Except.ok r => Except.ok r
    | Except.error _ => reviewChangesRetry tokLen files rest

/-! ## Claim C1: strategy exhaustion when all completion calls raise -/

/-- C1 (as stated, refuted): with a single filtered file and two strategy pairs
whose completion calls always raise, the claim says the orchestration raises a
single strategy-exhaustion failure and returns no ReviewResult. The code instead
catches the rejected `Promise.all` inside `reviewChanges` and returns a fallback
ReviewResult, so the FIRST strategy already returns successfully. -/
theorem strategy_exhaustion_counterexample :
    reviewChangesRetry (fun _ => 0) [{ filename := "b.ts", patch := "" }]
      [{ fits := fun _ => true, reviewF := fun _ => Except.error "network failure",
         responseBuilder := fun _ => Except.ok { comment := "", structuredComments := [] } },
       { fits := fun _ => true, reviewF := fun _ => Except.error "network failure",
         responseBuilder := fun _ => Except.ok { comment := "", structuredComments := [] } }] =
    Except.ok { comment := "Error occurred during review process",
                structuredComments := [] } := by
  rfl

/-- C1 (amended): when the first strategy's completion calls always raise (and at
least one batch group exists, so a call is actually issued), `reviewChangesRetry`
does not raise at all: `reviewChanges` catches the rejected batch step and
returns the fallback ReviewResult with comment
`Error occurred during review process` and no structured comments, which the
retry loop returns from the first strategy. The strategy-exhaustion error
`All convoBuilders failed.` is reachable only with an empty strategy list. -/
theorem strategy_exhaustion_amended (tokLen : PRFile → Nat) (files : List PRFile)
    (b : Builder) (rest : List Builder)
    (hgroups : reviewChangesGroups b.fits tokLen files ≠ [])
    (hraise : ∀ gs, ∃ e, b.reviewF gs = Except.error e) :
    reviewChangesRetry tokLen files (b :: rest) =
      Except.ok { comment := "Error occurred during review process",
                  structuredComments := [] } := by
  have hall : ∃ e, promiseAll b.reviewF (reviewChangesGroups b.fits tokLen files) =
      Except.error e := by
    cases hg : reviewChangesGroups b.fits tokLen files with
    | nil => exact absurd hg hgroups
    | cons g gs =>
      obtain ⟨e, he⟩ := hraise g
      exact ⟨e, by rw [promiseAll, he]⟩
  obtain ⟨e, he⟩ := hall
  rw [reviewChangesRetry, reviewChanges, he]

theorem strategy_exhaustion_witness :
    reviewChangesRetry (fun _ => 0) [{ filename := "b.ts", patch := "" }]
      [{ fits := fun _ => true, reviewF := fun _ => Except.error "boom",
         responseBuilder := fun _ => Except.ok { comment := "", structuredComments := [] } }] =
      Except.ok { comment := "Error occurred during review process",
                  structuredComments := [] } :=
  strategy_exhaustion_amended (fun _ => 0) [{ filename := "b.ts", patch := "" }]
    { fits := fun _ => true, reviewF := fun _ => Except.error "boom",
      responseBuilder := fun _ => Except.ok { comment := "", structuredComments := [] } }
    [] (by decide) (fun gs => ⟨"boom", rfl⟩)

/-! ## Claim C9: deduplication by identity -/

/-- Modelled from the spec: `PRSuggestionImpl.identity()` — the file
`src/data/PRSuggestionImpl.ts` is not part of the repository snapshot, only its
callers are. The spec states the identity is "derived deterministically from its
content" and "defined to be collision-free for distinct content", i.e. it is
(up to injection) the content tuple (description, category, comment, code,
filename); it is modelled as exactly that tuple. -/
def PRSuggestion.identity (s : PRSuggestion) :
    String × String × String × String × String :=
  (s.describe, s.type, s.comment, s.code, s.filename)

/-- `Map.prototype.set`: replace the value in place if the key is present
(keeping its original insertion position), otherwise append the new entry. -/
def mapSet (m : List ((String × String × String × String × String) × PRSuggestion))
    (k : String × String × String × String × String) (v : PRSuggestion) :
    List ((String × String × String × String × String) × PRSuggestion) :=
  match m with
  | [] => [(k, v)]
  | (k0, v0) :: rest =>
    if k0 = k then (k0, v) :: rest else (k0, v0) :: mapSet rest k v

/-- `review-agent.ts` `dedupSuggestions`: key each suggestion by its identity in
a `Map` (later entries with a seen key overwrite), then return the values in key
insertion order. -/
def dedupSuggestions (suggestions : List PRSuggestion) : List PRSuggestion :=
  (suggestions.foldl (fun m s => mapSet m s.identity s) []).map Prod.snd

theorem mem_mapSet_keys
    {m : List ((String × String × String × String × String) × PRSuggestion)}
    {k x : String × String × String × String × String} {v : PRSuggestion}
    (hx : x ∈ (mapSet m k v).map Prod.fst) : x ∈ m.map Prod.fst ∨ x = k := by
  induction m with
  | nil =>
    simp [mapSet] at hx
    exact Or.inr hx
  | cons q rest ih =>
    obtain ⟨kq, vq⟩ := q
    by_cases hq : kq = k
    · simp only [mapSet, if_pos hq, List.map_cons, List.mem_cons] at hx ⊢
      rcases hx with hx | hx
      · exact Or.inl (Or.inl hx)
      · exact Or.inl (Or.inr hx)
    · simp only [mapSet, if_neg hq, List.map_cons, List.mem_cons] at hx ⊢
      rcases hx with hx | hx
      · exact Or.inl (Or.inl hx)
      · rcases ih hx with hx | hx
        · exact Or.inl (Or.inr hx)
        · exact Or.inr hx

theorem mapSet_keys_nodup
    {m : List ((String × String × String × String × String) × PRSuggestion)}
    {k : String × String × String × String × String} {v : PRSuggestion}
    (hm : (m.map Prod.fst).Nodup) : ((mapSet m k v).map Prod.fst).Nodup := by
  induction m with
  | nil => simp [mapSet]
  | cons p rest ih =>
    obtain ⟨k0, v0⟩ := p
    simp only [List.map_cons, List.nodup_cons] at hm
    by_cases h : k0 = k
    · simp only [mapSet, if_pos h, List.map_cons, List.nodup_cons]
      exact hm
    · simp only [mapSet, if_neg h, List.map_cons, List.nodup_cons]
      refine ⟨?_, ih hm.2⟩
      intro hmem
      rcases mem_mapSet_keys hmem with hk | hk
      · exact hm.1 hk
      · exact h hk

theorem mapSet_values_identity
    {m : List ((String × String × String × String × String) × PRSuggestion)}
    {v : PRSuggestion}
    (hm : ∀ p ∈ m, p.1 = p.2.identity) :
    ∀ p ∈ mapSet m v.identity v, p.1 = p.2.identity := by
  induction m with
  | nil =>
    intro p hp
    simp only [mapSet, List.mem_singleton] at hp
    subst hp; rfl
  | cons q rest ih =>
    obtain ⟨k0, v0⟩ := q
    intro p hp
    by_cases h : k0 = v.identity
    · simp only [mapSet, if_pos h, List.mem_cons] at hp
      rcases hp with hp | hp
      · subst hp; simpa using h
      · exact hm p (List.mem_cons_of_mem _ hp)
    · simp only [mapSet, if_neg h, List.mem_cons] at hp
      rcases hp with hp | hp
      · subst hp; exact hm _ (List.mem_cons_self _ _)
      · exact ih (fun q hq => hm q (List.mem_cons_of_mem _ hq)) p hp

theorem dedupFold_keys_nodup (suggestions : List PRSuggestion) :
    ∀ m, (m.map Prod.fst).Nodup →
      (((suggestions.foldl (fun m s => mapSet m s.identity s) m)).map Prod.fst).Nodup := by
  induction suggestions with
  | nil => intro m hm; exact hm
  | cons s rest ih =>
    intro m hm
    simp only [List.foldl_cons]
    exact ih _ (mapSet_keys_nodup hm)

theorem dedupFold_values_identity (suggestions : List PRSuggestion) :
    ∀ m, (∀ p ∈ m, p.1 = p.2.identity) →
      ∀ p ∈ suggestions.foldl (fun m s => mapSet m s.identity s) m,
        p.1 = p.2.identity := by
  induction suggestions with
  | nil => intro m hm; exact hm
  | cons s rest ih =>
    intro m hm
    simp only [List.foldl_cons]
    exact ih _ (mapSet_values_identity hm)

theorem dedupSuggestions_pairwise (l : List PRSuggestion) :
    (dedupSuggestions l).Pairwise
      (fun a b => PRSuggestion.identity a ≠ PRSuggestion.identity b) := by
  unfold dedupSuggestions
  set m := l.foldl (fun m s => mapSet m s.identity s) [] with hm
  have hnd : (m.map Prod.fst).Nodup := dedupFold_keys_nodup l [] (by simp)
  have hid : ∀ p ∈ m, p.1 = p.2.identity :=
    dedupFold_values_identity l [] (by simp)
  have heq : m.map Prod.fst = m.map (fun p => p.2.identity) :=
    List.map_congr_left hid
  rw [heq] at hnd
  have hnd2 : (m.map (fun p => p.2.identity)).Pairwise (fun a b => a ≠ b) := hnd
  rw [List.pairwise_map] at hnd2
  rw [List.pairwise_map]
  exact hnd2

theorem mapSet_fresh
    {m : List ((String × String × String × String × String) × PRSuggestion)}
    {k : String × String × String × String × String} {v : PRSuggestion}
    (hk : k ∉ m.map Prod.fst) : mapSet m k v = m ++ [(k, v)] := by
  induction m with
  | nil => simp [mapSet]
  | cons p rest ih =>
    obtain ⟨k0, v0⟩ := p
    simp only [List.map_cons, List.mem_cons] at hk
    push_neg at hk
    simp only [mapSet, if_neg (Ne.symm hk.1), List.cons_append]
    rw [ih hk.2]

theorem dedupFold_fresh (l : List PRSuggestion) :
    ∀ m, (∀ s ∈ l, s.identity ∉ m.map Prod.fst) →
      l.Pairwise (fun a b => a.identity ≠ b.identity) →
      l.foldl (fun m s => mapSet m s.identity s) m =
        m ++ l.map (fun s => (s.identity, s)) := by
  induction l with
  | nil => intro m _ _; simp
  | cons s rest ih =>
    intro m hfresh hpw
    simp only [List.foldl_cons]
    rw [mapSet_fresh (hfresh s (List.mem_cons_self _ _))]
    rw [List.pairwise_cons] at hpw
    rw [ih (m ++ [(s.identity, s)]) ?_ hpw.2]
    · simp
    · intro t ht
      simp only [List.map_append, List.mem_append, List.map_cons, List.map_nil,
        List.mem_singleton]
      push_neg
      exact ⟨hfresh t (List.mem_cons_of_mem _ ht), (hpw.1 t ht).symm⟩

theorem dedupSuggestions_of_pairwise {l : List PRSuggestion}
    (hpw : l.Pairwise (fun a b => a.identity ≠ b.identity)) :
    dedupSuggestions l = l := by
  unfold dedupSuggestions
  rw [dedupFold_fresh l [] (by simp) hpw]
  rw [List.nil_append, List.map_map]
  exact List.map_id l

/-- C9: the identity of a suggestion is a deterministic function of its content
tuple; `dedupSuggestions` returns a list with pairwise-distinct identities; a
later suggestion with a seen identity overwrites the earlier one (so a
two-element list with equal identities dedups to exactly the later record); and
`dedupSuggestions` is idempotent. -/
theorem dedup_identity_determinism (l : List PRSuggestion) :
    (∀ a b : PRSuggestion, a.describe = b.describe → a.type = b.type →
      a.comment = b.comment → a.code = b.code → a.filename = b.filename →
      a.identity = b.identity) ∧
    (dedupSuggestions l).Pairwise
      (fun a b => PRSuggestion.identity a ≠ PRSuggestion.identity b) ∧
    (∀ a b : PRSuggestion, a.identity = b.identity →
      dedupSuggestions [a, b] = [b]) ∧
    dedupSuggestions (dedupSuggestions l) = dedupSuggestions l := by
  refine ⟨?_, dedupSuggestions_pairwise l, ?_, ?_⟩
  · intro a b h1 h2 h3 h4 h5
    unfold PRSuggestion.identity
    rw [h1, h2, h3, h4, h5]
  · intro a b hab
    unfold dedupSuggestions
    simp only [List.foldl_cons, List.foldl_nil, mapSet]
    rw [if_pos hab]
    simp
  · exact dedupSuggestions_of_pairwise (dedupSuggestions_pairwise l)

theorem dedup_identity_witness :
    (({ describe := "d", type := "t", comment := "c", code := "x", filename := "f" }
        : PRSuggestion).identity =
      ({ describe := "d", type := "t", comment := "c", code := "x", filename := "f" }
        : PRSuggestion).identity) ∧
    dedupSuggestions
        [{ describe := "d", type := "t", comment := "c", code := "x", filename := "f" },
         { describe := "d", type := "t", comment := "c", code := "x", filename := "f" }] =
      [{ describe := "d", type := "t", comment := "c", code := "x", filename := "f" }] :=
  ⟨(dedup_identity_determinism []).1 _ _ rfl rfl rfl rfl rfl,
   (dedup_identity_determinism []).2.2.1 _ _ rfl⟩

/-! ## Claim C10: the file filter -/

theorem filterFile_update (f : PRFile) (n : Nat) :
    filterFile { f with patchTokenLength := n } = filterFile f := rfl

theorem mem_reviewChangesGroups_filterFile {fits : List PRFile → Bool}
    {tokLen : PRFile → Nat} {files : List PRFile} {g : List PRFile} {f : PRFile}
    (hg : g ∈ reviewChangesGroups fits tokLen files) (hf : f ∈ g) :
    filterFile f = true := by
  unfold reviewChangesGroups at hg
  rcases List.mem_append.mp hg with hg | hg
  · have hmem := mem_processWithinLimitFiles hg hf
    have hmem2 := List.mem_of_mem_filter hmem
    obtain ⟨f0, hf0, rfl⟩ := List.mem_map.mp hmem2
    rw [filterFile_update]
    exact List.of_mem_filter hf0
  · obtain ⟨f1, hf1, rfl⟩ := mem_processOutsideLimitFiles hg hf
    have hmem2 := List.mem_of_mem_filter hf1
    obtain ⟨f0, hf0, rfl⟩ := List.mem_map.mp hmem2
    rw [filterFile_strip, filterFile_update]
    exact List.of_mem_filter hf0

/-- C10: `filterFile` rejects exactly the files whose lowercased basename is in
the fixed filename ignore list, or whose lowercased filename has at most one
`.`-separated segment, or whose final `.`-separated segment is in the fixed
extension ignore set; and the filtering happens before batching: every file in
every group produced by `reviewChanges` passes `filterFile`. -/
theorem filterFile_characterization :
    (∀ f : PRFile,
      filterFile f = false ↔
        ((strSplit (jsToLower f.filename) '/').getLastD "") ∈ filesToIgnore ∨
        (strSplit (jsToLower f.filename) '.').length ≤ 1 ∨
        jsToLower ((strSplit (jsToLower f.filename) '.').getLastD "") ∈
          extensionsToIgnore) ∧
    (∀ (fits : List PRFile → Bool) (tokLen : PRFile → Nat) (files : List PRFile)
      (g : List PRFile) (f : PRFile),
      g ∈ reviewChangesGroups fits tokLen files → f ∈ g → filterFile f = true) := by
  constructor
  · intro f
    unfold filterFile
    set bn := (strSplit (jsToLower f.filename) '/').getLastD "" with hbn
    set segs := strSplit (jsToLower f.filename) '.' with hsegs
    set ext := jsToLower (segs.getLastD "") with hext
    by_cases h1 : bn ∈ filesToIgnore
    · have hbne : bn ≠ "" := by
        intro hnil
        rw [hnil] at h1
        exact absurd h1 (by decide)
      have : (bn != "" && filesToIgnore.contains bn) = true := by
        simp [hbne, h1]
      rw [if_pos this]
      simp [h1]
    · have : (bn != "" && filesToIgnore.contains bn) = false := by
        by_cases hbne : bn = ""
        · simp [hbne]
        · simp [hbne, h1]
      rw [if_neg (by rw [this]; simp)]
      by_cases h2 : segs.length ≤ 1
      · rw [if_pos h2]
        simp [h1, h2]
      · rw [if_neg h2]
        by_cases h3 : ext ∈ extensionsToIgnore
        · have hexte : ext ≠ "" := by
            intro hnil
            rw [hnil] at h3
            exact absurd h3 (by decide)
          have : (ext != "" && extensionsToIgnore.contains ext) = true := by
            simp [hexte, h3]
          rw [if_pos this]
          simp [h1, h2, h3]
        · have : (ext != "" && extensionsToIgnore.contains ext) = false := by
            by_cases hexte : ext = ""
            · simp [hexte]
            · simp [hexte, h3]
          rw [if_neg (by rw [this]; simp)]
          simp [h1, h2, h3]
  · intro fits tokLen files g f hg hf
    exact mem_reviewChangesGroups_filterFile hg hf

theorem filterFile_characterization_witness :
    (filterFile { filename := "src/Package.JSON", patch := "" } = false ↔
      ((strSplit (jsToLower ({ filename := "src/Package.JSON", patch := "" }
          : PRFile).filename) '/').getLastD "") ∈ filesToIgnore ∨
      (strSplit (jsToLower ({ filename := "src/Package.JSON", patch := "" }
          : PRFile).filename) '.').length ≤ 1 ∨
      jsToLower ((strSplit (jsToLower ({ filename := "src/Package.JSON", patch := "" }
          : PRFile).filename) '.').getLastD "") ∈ extensionsToIgnore) ∧
    filterFile { filename := "b.ts", patch := "" } = true :=
  ⟨filterFile_characterization.1 { filename := "src/Package.JSON", patch := "" },
   filterFile_characterization.2 (fun _ => true) (fun _ => 0)
     [{ filename := "b.ts", patch := "" }]
     [{ filename := "b.ts", patch := "", old_contents := none,
        current_contents := none, patchTokenLength := 0 }]
     { filename := "b.ts", patch := "", old_contents := none,
       current_contents := none, patchTokenLength := 0 }
     (by decide) (by decide)⟩

/-! ## Dynamic JS values (xml2js output, JSON.parse output) -/

/-- A dynamic JS value as produced by `xml2js` / `JSON.parse`: string, number
(modelled as an integer), `null`, `undefined`, array, or plain object with
string keys in insertion order. -/
inductive JsVal where
  | vstr : String → JsVal
  | vnum : Int → JsVal
  | vnull : JsVal
  | vundefined : JsVal
  | varr : List JsVal → JsVal
  | vobj : List (String × JsVal) → JsVal

/-- JS truthiness. -/
def truthy : JsVal → Bool
  | .vstr s => s != ""
  | .vnum n => n != 0
  | .vnull => false
  | .vundefined => false
  | .varr _ => true
  | .vobj _ => true

/-- JS `typeof`. -/
def jsTypeof : JsVal → String
  | .vstr _ => "string"
  | .vnum _ => "number"
  | .vnull => "object"
  | .vundefined => "undefined"
  | .varr _ => "object"
  | .vobj _ => "object"

/-- JS property access `v[k]` (missing properties read as `undefined`). -/
def jsGet : JsVal → String → JsVal
  | .vobj kvs, k =>
    match kvs.find? (fun kv => kv.1 == k) with
    | some kv => kv.2
    | none => .vundefined
  | _, _ => .vundefined

mutual
/-- JS `String(v)` conversion (template-literal coercion). Arrays join their
elements with `","`, where `null`/`undefined` elements render empty. -/
def jsToString : JsVal → String
  | .vstr s => s
  | .vnum n => toString n
  | .vnull => "null"
  | .vundefined => "undefined"
  | .varr l => joinElems l
  | .vobj _ => "[object Object]"

def joinElems : List JsVal → String
  | [] => ""
  | v :: rest =>
    (match v with
     | .vnull => ""
     | .vundefined => ""
     | w => jsToString w) ++
    (match rest with
     | [] => ""
     | _ :: _ => "," ++ joinElems rest)
end

/-- JSON string escaping (the characters `JSON.stringify` escapes in the inputs
this model handles: backslash, double quote, and the common control
characters). -/
def jsonEscapeChar (c : Char) : List Char :=
  if c == '\\' then ['\\', '\\']
  else if c == '"' then ['\\', '"']
  else if c == '\n' then ['\\', 'n']
  else if c == '\t' then ['\\', 't']
  else if c == Char.ofNat 13 then ['\\', 'r']
  else [c]

def jsonEscape (s : String) : String :=
  String.mk ((s.data.map jsonEscapeChar).flatten)

mutual
/-- `JSON.stringify`. Returns `none` for `undefined` (where JS returns the value
`undefined`, not a string); inside arrays `undefined` serializes as `null`, and
object properties with unserializable values are skipped. -/
def jsonStringify : JsVal → Option String
  | .vstr s => some ("\"" ++ jsonEscape s ++ "\"")
  | .vnum n => some (toString n)
  | .vnull => some "null"
  | .vundefined => none
  | .varr l => some ("[" ++ strJoin "," (jsonStringifyElems l) ++ "]")
  | .vobj kvs => some ("\x7b" ++ strJoin "," (jsonStringifyProps kvs) ++ "\x7d")

def jsonStringifyElems : List JsVal → List String
  | [] => []
  | v :: rest =>
    ((jsonStringify v).getD "null") :: jsonStringifyElems rest

def jsonStringifyProps : List (String × JsVal) → List String
  | [] => []
  | (k, v) :: rest =>
    match jsonStringify v with
    | some s => ("\"" ++ jsonEscape k ++ "\":" ++ s) :: jsonStringifyProps rest
    | none => jsonStringifyProps rest
end

/-! ## Structured parser: `processXMLSuggestions` code normalization (C5) -/

/-- The object sub-case of the array branch of the code normalization
(`firstElement._` as non-empty string, else truthy `firstElement.$` stringified,
else the element stringified whole). -/
def normalizeElemObj (first : JsVal) : Option String :=
  match jsGet first "_" with
  | .vstr s =>
    if s != "" then some s
    else if truthy (jsGet first "$") then jsonStringify (jsGet first "$")
    else jsonStringify first
  | _ =>
    if truthy (jsGet first "$") then jsonStringify (jsGet first "$")
    else jsonStringify first

/-- The non-array object branch of the code normalization; here the `$` fallback
additionally requires `typeof === 'object'`. -/
def normalizeCodeObj (code : JsVal) : Option String :=
  match jsGet code "_" with
  | .vstr s =>
    if s != "" then some s
    else if truthy (jsGet code "$") && (jsTypeof (jsGet code "$") == "object")
      then jsonStringify (jsGet code "$")
    else jsonStringify code
  | _ =>
    if truthy (jsGet code "$") && (jsTypeof (jsGet code "$") == "object")
      then jsonStringify (jsGet code "$")
    else jsonStringify code

/-- The `codeContent` normalization chain of `processXMLSuggestions`: plain
string; non-empty array whose first element is a string or an object; a
non-array object (including the empty array, which in JS is a truthy object);
anything else leaves `codeContent` undefined and the suggestion is dropped
(`none`). -/
def normalizeCode (code : JsVal) : Option String :=
  match code with
  | .vstr s => some s
  | .varr (first :: _) =>
    (match first with
     | .vstr s => some s
     | .varr l => normalizeElemObj (.varr l)
     | .vobj kvs => normalizeElemObj (.vobj kvs)
     | _ => none)
  | .varr [] => normalizeCodeObj (.varr [])
  | .vobj kvs => normalizeCodeObj (.vobj kvs)
  | _ => none

/-- Post-normalization code cleanup: trim the whole text, then re-trim the first
and last line, and re-join. -/
def modifyLastStr (f : String → String) : List String → List String
  | [] => []
  | [x] => [f x]
  | x :: y :: rest => x :: modifyLastStr f (y :: rest)

def trimCodeLines (codeContent : String) : String :=
  let lines := strSplit (jsTrim codeContent) '\n'
  let lines :=
    match lines with
    | [] => []
    | x :: rest => jsTrim x :: rest
  strJoin "\n" (modifyLastStr jsTrim lines)

/-- Tolerant normalization of the `describe`/`type`/`comment`/`filename` fields:
a string is kept, a non-empty array contributes `String(arr[0])`, anything else
becomes the empty string. -/
def normField (v : JsVal) : String :=
  match v with
  | .vstr s => s
  | .varr (first :: _) => jsToString first
  | _ => ""

/-- The per-suggestion mapper of `processXMLSuggestions`: `null`-ish and
code-less suggestions are dropped, the code field is normalized (dropping the
suggestion when normalization fails), and the remaining fields are normalized
tolerantly. -/
def processOneSuggestion (rawSuggestion : JsVal) : Option PRSuggestion :=
  if !(truthy rawSuggestion) then none
  else if !(truthy (jsGet rawSuggestion "code")) then none
  else
    match normalizeCode (jsGet rawSuggestion "code") with
    | none => none
    | some codeContent =>
      some { describe := normField (jsGet rawSuggestion "describe"),
             type := normField (jsGet rawSuggestion "type"),
             comment := normField (jsGet rawSuggestion "comment"),
             code := trimCodeLines codeContent,
             filename := normField (jsGet rawSuggestion "filename") }

/-- `review-agent.ts` `processXMLSuggestions`, from the flattened per-reply
suggestion list (`allSuggestions`) on: map each raw suggestion and
`filter(Boolean)` the results. -/
def processXMLSuggestions (allSuggestions : List JsVal) : List PRSuggestion :=
  (allSuggestions.map processOneSuggestion).filterMap id

/-- C5 (as stated, refuted): a raw suggestion whose code field is the
whitespace-only string `"   "` normalizes (it is a plain string, truthy in JS),
but the trim step collapses it to the empty string, so the result contains a
suggestion whose code text is EMPTY — contradicting "every suggestion present in
the result has non-empty code text". -/
theorem xml_code_counterexample :
    processXMLSuggestions [JsVal.vobj [("code", JsVal.vstr "   ")]] =
      [{ describe := "", type := "", comment := "", code := "", filename := "" }] ∧
    (processXMLSuggestions [JsVal.vobj [("code", JsVal.vstr "   ")]]).map
        PRSuggestion.code = [""] := by
  exact ⟨rfl, rfl⟩

/-- C5 (amended): every parsed suggestion whose code field cannot be normalized
to a single text value is dropped from the result, and every suggestion present
in the result carries the trim-normalized text of a successfully normalized code
field — which can be the empty string when the normalized text was
whitespace-only. -/
theorem xml_code_normalization (raws : List JsVal) :
    (∀ v : JsVal, normalizeCode (jsGet v "code") = none →
      processOneSuggestion v = none) ∧
    (∀ s ∈ processXMLSuggestions raws,
      ∃ v ∈ raws, ∃ c, truthy (jsGet v "code") = true ∧
        normalizeCode (jsGet v "code") = some c ∧ s.code = trimCodeLines c) := by
  constructor
  · intro v h
    by_cases h1 : truthy v
    · by_cases h2 : truthy (jsGet v "code")
      · simp [processOneSuggestion, h1, h2, h]
      · simp [processOneSuggestion, h1, h2]
    · simp [processOneSuggestion, h1]
  · intro s hs
    unfold processXMLSuggestions at hs
    rw [List.filterMap_map] at hs
    obtain ⟨v, hv, hps⟩ := List.mem_filterMap.mp hs
    simp only [Function.comp_apply, id_eq] at hps
    refine ⟨v, hv, ?_⟩
    by_cases h1 : truthy v
    · by_cases h2 : truthy (jsGet v "code")
      · cases hnc : normalizeCode (jsGet v "code") with
        | none => simp [processOneSuggestion, h1, h2, hnc] at hps
        | some c =>
          refine ⟨c, h2, rfl, ?_⟩
          simp only [processOneSuggestion, h1, h2, hnc, Bool.not_true,
            Bool.false_eq_true, if_false, Option.some.injEq] at hps
          rw [← hps]
      · simp [processOneSuggestion, h1, h2] at hps
    · simp [processOneSuggestion, h1] at hps

theorem xml_code_normalization_witness :
    processOneSuggestion (JsVal.vobj [("code", JsVal.vnum 5)]) = none ∧
    (∃ v ∈ [JsVal.vobj [("code", JsVal.vstr "const x = 1")]], ∃ c,
      truthy (jsGet v "code") = true ∧
      normalizeCode (jsGet v "code") = some c ∧
      ({ describe := "", type := "", comment := "", code := "const x = 1",
         filename := "" } : PRSuggestion).code = trimCodeLines c) :=
  ⟨(xml_code_normalization []).1 (JsVal.vobj [("code", JsVal.vnum 5)]) rfl,
   (xml_code_normalization [JsVal.vobj [("code", JsVal.vstr "const x = 1")]]).2
     { describe := "", type := "", comment := "", code := "const x = 1",
       filename := "" } (by decide)⟩

/-! ## Inline fixes: `generateInlineComments` no-op suppression (C6) -/

/-- `CodeSuggestion` (inline fix record). The `comment` keeps the raw dynamic
value `args["comment"] || ''`. -/
structure CodeSuggestion where
  file : String
  line_start : Int
  line_end : Int
  correction : String
  comment : JsVal

/-- `review-agent.ts` `indentCodeFix`: prefix every replacement line with the
leading `[ \t]{0,100}` run of the targeted first line; out-of-range line numbers
return the code unmodified. -/
def indentCodeFix (file code : String) (lineStart : Int) : String :=
  let fileLines := strSplit file '\n'
  if lineStart < 1 || lineStart > fileLines.length then code
  else
    let firstLine := fileLines.getD (lineStart - 1).toNat ""
    let indentation :=
      String.mk ((firstLine.data.takeWhile (fun c => c == ' ' || c == '\t')).take 100)
    strJoin "\n" ((strSplit code '\n').map (fun line => indentation ++ line))

/-- `review-agent.ts` `isCodeSuggestionNew`: the proposed fix is "new" unless,
over the 1-based inclusive line range, the current content equals the
correction after trimming both sides. -/
def isCodeSuggestionNew (contents : String) (suggestion : CodeSuggestion) : Bool :=
  let fileLines := strSplit contents '\n'
  let targetLines :=
    strJoin "\n" (jsSlice fileLines (suggestion.line_start - 1) suggestion.line_end)
  if jsTrim targetLines == jsTrim suggestion.correction then false
  else true

/-- `review-agent.ts` `generateInlineComments`. The completion service and
`JSON.parse` are external: `args` is the parsed function-call argument object
(`none` models a missing `function_call` or unparsable arguments, both of which
the source turns into `null`). Missing `current_contents` returns `null`; a
falsy `code` or non-number `lineStart`/`lineEnd` returns `null`; finally the
indented fix is suppressed when `isCodeSuggestionNew` reports it is not new. -/
def generateInlineComments (args : Option JsVal) (suggestion : PRSuggestion)
    (file : PRFile) : Option CodeSuggestion :=
  match file.current_contents with
  | none => none
  | some contents =>
    match args with
    | none => none
    | some a =>
      if !(truthy (jsGet a "code")) then none
      else
        match jsGet a "lineStart", jsGet a "lineEnd" with
        | .vnum lineStart, .vnum lineEnd =>
          let initialCode := jsToString (jsGet a "code")
          let indentedCode := indentCodeFix contents initialCode lineStart
          let codeFix : CodeSuggestion :=
            { file := suggestion.filename,
              line_start := lineStart,
              line_end := lineEnd,
              correction := indentedCode,
              comment :=
                if truthy (jsGet a "comment") then jsGet a "comment"
                else .vstr "" }
          if isCodeSuggestionNew contents codeFix then some codeFix else none
        | _, _ => none

theorem isCodeSuggestionNew_true {contents : String} {cs : CodeSuggestion}
    (h : isCodeSuggestionNew contents cs = true) :
    jsTrim (strJoin "\n"
        (jsSlice (strSplit contents '\n') (cs.line_start - 1) cs.line_end)) ≠
      jsTrim cs.correction := by
  simp only [isCodeSuggestionNew] at h
  intro heq
  rw [if_pos (beq_iff_eq.mpr heq)] at h
  exact Bool.false_ne_true h

/-- C6: no-op suppression. Whenever `generateInlineComments` returns an inline
fix, the current file content over the fix's 1-based inclusive line range
differs, after whitespace-trimming, from the proposed replacement; equivalently,
when the trimmed current range equals the trimmed replacement the function
returns `null`. -/
theorem inline_noop_suppression (args : Option JsVal) (suggestion : PRSuggestion)
    (file : PRFile) (contents : String) (cs : CodeSuggestion)
    (hc : file.current_contents = some contents)
    (hres : generateInlineComments args suggestion file = some cs) :
    jsTrim (strJoin "\n"
        (jsSlice (strSplit contents '\n') (cs.line_start - 1) cs.line_end)) ≠
      jsTrim cs.correction := by
  unfold generateInlineComments at hres
  rw [hc] at hres
  match args with
  | none => simp at hres
  | some a =>
    simp only at hres
    by_cases h1 : truthy (jsGet a "code")
    · rw [if_neg (by simp [h1])] at hres
      split at hres
      · repeat' split at hres
        all_goals
          first
            | (have hcs := Option.some.inj hres; subst hcs;
               exact isCodeSuggestionNew_true (by assumption))
            | simp at hres
      · exact absurd hres (by simp)
    · rw [if_pos (by simp [h1])] at hres
      exact absurd hres (by simp)

theorem inline_noop_suppression_witness :
    jsTrim (strJoin "\n" (jsSlice (strSplit "old" '\n')
        (({ file := "x.ts", line_start := 1, line_end := 1, correction := "newcode",
            comment := JsVal.vstr "" } : CodeSuggestion).line_start - 1)
        ({ file := "x.ts", line_start := 1, line_end := 1, correction := "newcode",
           comment := JsVal.vstr "" } : CodeSuggestion).line_end)) ≠
      jsTrim ({ file := "x.ts", line_start := 1, line_end := 1,
                correction := "newcode",
                comment := JsVal.vstr "" } : CodeSuggestion).correction :=
  inline_noop_suppression
    (some (JsVal.vobj [("code", JsVal.vstr "newcode"),
      ("lineStart", JsVal.vnum 1), ("lineEnd", JsVal.vnum 1)]))
    { describe := "", type := "", comment := "", code := "", filename := "x.ts" }
    { filename := "x.ts", patch := "", current_contents := some "old" }
    "old"
    { file := "x.ts", line_start := 1, line_end := 1, correction := "newcode",
      comment := JsVal.vstr "" }
    rfl rfl

/-! ## Fallback parser: fenced code block extraction (C4) -/

/-- The backtick character. -/
def btick : Char := Char.ofNat 96

/-- The lazy tail of the block regex: the text up to the FIRST closing
triple-backtick fence, with the remainder after it; `none` when no closing
fence exists (in which case no further match is possible, since every later
match would need a closing fence in this same suffix). -/
def findClose : List Char → Option (List Char × List Char)
  | [] => none
  | c :: rest =>
    if c == btick && rest.take 2 == [btick, btick] then some ([], rest.drop 2)
    else
      match findClose rest with
      | none => none
      | some (code, r) => some (c :: code, r)

/-- One match of the global regex
`/(three backticks)(?:(\w+))?\s*([\s\S]*?)(three backticks)/g`: the optional
language word (`match[1]`, empty when absent), the matched code (`match[2]`),
and the up-to-500-character window of text preceding the match
(`text.substring(max(0, match.index - 500), match.index)`). -/
structure FenceMatch where
  language : String
  code : String
  beforeBlock : String
deriving DecidableEq

/-- The `exec` loop: scan left to right; at an opening fence take the greedy
`\w*` language word, then the greedy whitespace run, then the lazy body up to
the first closing fence; resume after the match. `seen` is the reversed
already-scanned prefix (used for the 500-character window); `fuel` only bounds
the recursion and never runs out, since every step consumes at least one
character and the fuel starts above the text length. -/
def scanAux : Nat → List Char → List Char → List FenceMatch
  | 0, _, _ => []
  | _ + 1, _, [] => []
  | fuel + 1, seen, c :: rest =>
    if c == btick && rest.take 2 == [btick, btick] then
      let afterFence := rest.drop 2
      let w := afterFence.takeWhile isWordChar
      let rest1 := afterFence.dropWhile isWordChar
      let ws := rest1.takeWhile isSpaceChar
      let rest2 := rest1.dropWhile isSpaceChar
      match findClose rest2 with
      | none => []
      | some (code, rest3) =>
        let consumed :=
          [btick, btick, btick] ++ w ++ ws ++ code ++ [btick, btick, btick]
        { language := String.mk w, code := String.mk code,
          beforeBlock := String.mk ((seen.take 500).reverse) } ::
          scanAux fuel (consumed.reverse ++ seen) rest3
    else scanAux fuel (c :: seen) rest

def scanBlocks (text : List Char) : List FenceMatch :=
  scanAux (text.length + 1) [] text

/-- The `extensionMap` of the fallback parser, with default `txt`, keyed on the
lowercased language. -/
def extensionMapLookup (language : String) : String :=
  let l := jsToLower language
  if l = "js" then "js" else if l = "javascript" then "js"
  else if l = "ts" then "ts" else if l = "typescript" then "ts"
  else if l = "py" then "py" else if l = "python" then "py"
  else if l = "java" then "java" else if l = "c" then "c"
  else if l = "cpp" then "cpp" else if l = "cs" then "cs"
  else if l = "go" then "go" else if l = "rust" then "rs"
  else if l = "php" then "php" else if l = "ruby" then "rb"
  else if l = "html" then "html" else if l = "css" then "css"
  else "txt"

/-- Build the suggestion for one retained code block. The filename-label
pattern search over the preceding window (`ff`, the ordered regex list
"file:/path:/in file/for file/name.ext:") and the preceding-paragraph/sentence
comment heuristic (`mc`) are empirically tuned regex heuristics of the source,
abstracted as parameters; their results only populate the filename and comment
fields. The language default, the synthesized `code-suggestion.<ext>` filename
fallback, the fixed category `improvement`, and the re-fenced code block are
concrete. -/
def mkFallbackSuggestion (ff : String → Option String)
    (mc : String → String → String) (m : FenceMatch) : PRSuggestion :=
  let language := if m.language = "" then "js" else m.language
  let filename :=
    match ff m.beforeBlock with
    | some fn => fn
    | none => "code-suggestion." ++ extensionMapLookup language
  { describe := "Code suggestion for " ++ filename,
    type := "improvement",
    comment := mc m.beforeBlock language,
    code := "```" ++ language ++ "\n" ++ m.code ++ "\n```",
    filename := filename }

/-- `review-agent.ts` `fallbackTextParser`: for every regex match, skip empty or
whitespace-only code blocks (`if (!code || code.trim().length === 0) continue`),
and push one suggestion per remaining block. -/
def fallbackTextParser (ff : String → Option String)
    (mc : String → String → String) (text : String) : List PRSuggestion :=
  (scanBlocks text.data).filterMap (fun m =>
    if m.code == "" || (jsTrim m.code).length == 0 then none
    else some (mkFallbackSuggestion ff mc m))

/-- C4 (as stated, refuted): the text ` ```js ` + whitespace + ` ``` ` contains
exactly one fenced code block (with language tag), but the fallback parser
returns NO suggestion for it: the block's code is whitespace-only and the parser
skips such blocks. -/
theorem fallback_parser_counterexample :
    (scanBlocks ("```js\n   ```" : String).data).length = 1 ∧
    fallbackTextParser (fun _ => none) (fun _ _ => "") "```js\n   ```" = [] := by
  exact ⟨by decide, by decide⟩

theorem length_filterMap_if {α β : Type} (p : α → Bool) (g : α → β) (l : List α) :
    (l.filterMap (fun m => if p m then none else some (g m))).length =
      (l.filter (fun m => !(p m))).length := by
  induction l with
  | nil => rfl
  | cons m rest ih =>
    by_cases h : p m = true
    · rw [List.filterMap_cons_none (by simp [h]),
        List.filter_cons_of_neg (by simp [h])]
      exact ih
    · have hfalse : p m = false := Bool.eq_false_iff.mpr h
      have hstep : (List.filterMap (fun m => if p m then none else some (g m))
          (m :: rest)) =
          g m :: List.filterMap (fun m => if p m then none else some (g m)) rest := by
        simp [List.filterMap_cons, hfalse]
      rw [hstep, List.filter_cons_of_pos (by simp [hfalse])]
      simp [ih]

/-- C4 (amended): the fallback parser emits exactly one suggestion per fenced
code block whose body is neither empty nor whitespace-only (whitespace-only
blocks are skipped), and every emitted suggestion has category `improvement`. -/
theorem fallback_parser_blocks (ff : String → Option String)
    (mc : String → String → String) (text : String) :
    (fallbackTextParser ff mc text).length =
      ((scanBlocks text.data).filter
        (fun m => !(m.code == "" || (jsTrim m.code).length == 0))).length ∧
    (fallbackTextParser ff mc text).all (fun s => s.type == "improvement") = true := by
  constructor
  · unfold fallbackTextParser
    exact length_filterMap_if _ _ _
  · rw [List.all_eq_true]
    intro s hs
    obtain ⟨m, hm, hf⟩ := List.mem_filterMap.mp hs
    by_cases h : (m.code == "" || (jsTrim m.code).length == 0) = true
    · rw [if_pos h] at hf
      exact absurd hf (by simp)
    · rw [if_neg h] at hf
      have := Option.some.inj hf
      subst this
      rfl

/-! ## Issue link generation (C7) -/

/-- The characters `encodeURIComponent` leaves unescaped:
ASCII alphanumerics and `- _ . ! ~ * ' ( )`. -/
def isUnreservedURIChar (c : Char) : Bool :=
  c.isAlphanum || c == '-' || c == '_' || c == '.' || c == '!' || c == '~' ||
  c == '*' || c == Char.ofNat 39 || c == '(' || c == ')'

/-- UTF-8 bytes of a code point. -/
def utf8Bytes (c : Char) : List Nat :=
  let n := c.toNat
  if n < 128 then [n]
  else if n < 2048 then [192 + n / 64, 128 + n % 64]
  else if n < 65536 then [224 + n / 4096, 128 + (n / 64) % 64, 128 + n % 64]
  else [240 + n / 262144, 128 + (n / 4096) % 64, 128 + (n / 64) % 64, 128 + n % 64]

def hexDigit (n : Nat) : Char :=
  if n < 10 then Char.ofNat (48 + n) else Char.ofNat (55 + n)

def percentByte (b : Nat) : List Char :=
  ['%', hexDigit (b / 16), hexDigit (b % 16)]

def encodeURIComponentChar (c : Char) : List Char :=
  if isUnreservedURIChar c then [c]
  else ((utf8Bytes c).map percentByte).flatten

def encodeURIComponent (s : String) : String :=
  String.mk ((s.data.map encodeURIComponentChar).flatten)

/-- The strict identifier pattern `/^[a-zA-Z0-9-_.]+$/`. -/
def validRepoIdent (s : String) : Bool :=
  s != "" && s.data.all (fun c => c.isAlphanum || c == '-' || c == '_' || c == '.')

/-- `review-agent.ts` `generateGithubIssueUrl`. Degrades to the placeholder link
for falsy or pattern-failing identifiers; truncates title/body/codeblock;
percent-encodes; and rebuilds the URL without the code block when the first URL
exceeds 2048 characters. -/
def generateGithubIssueUrl (owner repoName title body : String)
    (codeblock : Option String) : String :=
  if owner == "" || repoName == "" then "[Create Issue](https://github.com)"
  else if !(validRepoIdent owner) || !(validRepoIdent repoName) then
    "[Create Issue](https://github.com)"
  else
    let sanitizedTitle := jsTake title 200
    let sanitizedBody := jsTake body 5000
    let sanitizedCodeBlock :=
      match codeblock with
      | some cb => if cb != "" then jsTake cb 10000 else ""
      | none => ""
    let encodedTitle := encodeURIComponent sanitizedTitle
    let encodedBody := encodeURIComponent sanitizedBody
    let encodedCodeBlock :=
      if sanitizedCodeBlock != "" then
        encodeURIComponent ("\n" ++ sanitizedCodeBlock ++ "\n")
      else ""
    let url := "https://github.com/" ++ owner ++ "/" ++ repoName ++
      "/issues/new?title=" ++ encodedTitle ++ "&body=" ++ encodedBody ++
      encodedCodeBlock
    let url :=
      if url.length > 2048 then
        "https://github.com/" ++ owner ++ "/" ++ repoName ++
          "/issues/new?title=" ++ encodedTitle ++ "&body=" ++ encodedBody
      else url
    "[Create Issue](" ++ url ++ ")"

theorem encodeURIComponent_replicate_a (n : Nat) :
    encodeURIComponent (String.mk (List.replicate n 'a')) =
      String.mk (List.replicate n 'a') := by
  unfold encodeURIComponent
  congr 1
  induction n with
  | zero => rfl
  | succ k ih =>
    rw [List.replicate_succ, List.map_cons, List.flatten_cons, ih]
    rfl

/-- For valid identifiers and no code block, the generator always returns the
base URL link: the encoded code block is empty, so the over-cap rebuild produces
the same URL. -/
theorem generateGithubIssueUrl_none (owner repoName title body : String)
    (hvo : validRepoIdent owner = true) (hvr : validRepoIdent repoName = true) :
    generateGithubIssueUrl owner repoName title body none =
      "[Create Issue](" ++ ("https://github.com/" ++ owner ++ "/" ++ repoName ++
        "/issues/new?title=" ++ encodeURIComponent (jsTake title 200) ++
        "&body=" ++ encodeURIComponent (jsTake body 5000)) ++ ")" := by
  have ho : (owner == "") = false := by
    rw [validRepoIdent, Bool.and_eq_true] at hvo
    simpa using hvo.1
  have hr : (repoName == "") = false := by
    rw [validRepoIdent, Bool.and_eq_true] at hvr
    simpa using hvr.1
  unfold generateGithubIssueUrl
  rw [if_neg (by simp [ho, hr]), if_neg (by simp [hvo, hvr])]
  simp only [bne_self_eq_false, Bool.false_eq_true, if_false, String.append_empty]
  split <;> rfl

theorem issue_url_big (n : Nat) (h1 : 2003 <= n) (h2 : n <= 5000) :
    generateGithubIssueUrl "o" "r" "" (String.mk (List.replicate n 'a')) none =
      "[Create Issue](" ++ ("https://github.com/o/r/issues/new?title=&body=" ++
        String.mk (List.replicate n 'a')) ++ ")" /\
    ("https://github.com/o/r/issues/new?title=&body=" ++
      String.mk (List.replicate n 'a')).length > 2048 := by
  have hb : jsTake (String.mk (List.replicate n 'a')) 5000 =
      String.mk (List.replicate n 'a') := by
    unfold jsTake
    congr 1
    exact List.take_of_length_le (by simpa using h2)
  constructor
  . rw [generateGithubIssueUrl_none "o" "r" "" (String.mk (List.replicate n 'a'))
      (by decide) (by decide)]
    congr 2
    rw [hb, encodeURIComponent_replicate_a n]
    have he : encodeURIComponent (jsTake "" 200) = "" := rfl
    rw [he]
    have hlit : ("https://github.com/" ++ "o" ++ "/" ++ "r" ++
        "/issues/new?title=" ++ "" ++ "&body=" : String) =
        "https://github.com/o/r/issues/new?title=&body=" := by decide
    rw [hlit]
  . simp only [String.length_append, String.length_mk, List.length_replicate]
    have hlitlen : ("https://github.com/o/r/issues/new?title=&body=" : String).length
        = 46 := by decide
    rw [hlitlen]
    omega

/-- C7 (as stated, refuted): with valid identifiers `o`/`r`, empty title, no
code block, and a 3000-character plain-ASCII body, the generated URL is 3046
characters long. The length cap only triggers a rebuild WITHOUT the code block;
since there was no code block, the rebuilt URL is identical and still exceeds
2048 characters, and it is returned as a non-placeholder link. -/
theorem issue_url_counterexample :
    generateGithubIssueUrl "o" "r" "" (String.mk (List.replicate 3000 'a')) none =
      "[Create Issue](" ++ ("https://github.com/o/r/issues/new?title=&body=" ++
        String.mk (List.replicate 3000 'a')) ++ ")" /\
    ("https://github.com/o/r/issues/new?title=&body=" ++
      String.mk (List.replicate 3000 'a')).length > 2048 :=
  issue_url_big 3000 (by decide) (by decide)

/-- C7 (amended): the generator returns the placeholder link whenever the owner
or repository identifier fails the `[a-zA-Z0-9-_.]+` pattern; and every
non-placeholder result wraps either a URL of at most 2048 characters or the
regenerated URL that omits the code block — the regenerated URL itself may still
exceed the 2048-character cap, because the truncated title and body alone can
encode to more than 2048 characters. -/
theorem issue_url_properties (owner repoName title body : String)
    (codeblock : Option String) :
    (¬(validRepoIdent owner = true ∧ validRepoIdent repoName = true) →
      generateGithubIssueUrl owner repoName title body codeblock =
        "[Create Issue](https://github.com)") ∧
    (generateGithubIssueUrl owner repoName title body codeblock =
        "[Create Issue](https://github.com)" ∨
      ∃ url : String, generateGithubIssueUrl owner repoName title body codeblock =
          "[Create Issue](" ++ url ++ ")" ∧
        (url.length ≤ 2048 ∨
          url = "https://github.com/" ++ owner ++ "/" ++ repoName ++
            "/issues/new?title=" ++ encodeURIComponent (jsTake title 200) ++
            "&body=" ++ encodeURIComponent (jsTake body 5000))) := by
  constructor
  · intro hinvalid
    unfold generateGithubIssueUrl
    by_cases hempty : (owner == "" || repoName == "") = true
    · rw [if_pos hempty]
    · rw [if_neg hempty]
      rw [if_pos ?_]
      rw [Bool.or_eq_true, Bool.not_eq_true', Bool.not_eq_true']
      by_cases ho : validRepoIdent owner = true
      · by_cases hr : validRepoIdent repoName = true
        · exact absurd ⟨ho, hr⟩ hinvalid
        · exact Or.inr (Bool.eq_false_iff.mpr hr)
      · exact Or.inl (Bool.eq_false_iff.mpr ho)
  · unfold generateGithubIssueUrl
    by_cases hempty : (owner == "" || repoName == "") = true
    · rw [if_pos hempty]
      exact Or.inl rfl
    · rw [if_neg hempty]
      by_cases hvalid : (!(validRepoIdent owner) || !(validRepoIdent repoName)) = true
      · rw [if_pos hvalid]
        exact Or.inl rfl
      · rw [if_neg hvalid]
        simp only
        by_cases hcap :
            ("https://github.com/" ++ owner ++ "/" ++ repoName ++
              "/issues/new?title=" ++ encodeURIComponent (jsTake title 200) ++
              "&body=" ++ encodeURIComponent (jsTake body 5000) ++
              (if (match codeblock with
                   | some cb => if cb != "" then jsTake cb 10000 else ""
                   | none => "") != "" then
                encodeURIComponent ("\n" ++
                  (match codeblock with
                   | some cb => if cb != "" then jsTake cb 10000 else ""
                   | none => "") ++ "\n")
              else "")).length > 2048
        · rw [if_pos hcap]
          exact Or.inr ⟨_, rfl, Or.inr rfl⟩
        · rw [if_neg hcap]
          refine Or.inr ⟨_, rfl, Or.inl ?_⟩
          omega

theorem issue_url_witness :
    generateGithubIssueUrl "bad owner" "r" "t" "b" none =
      "[Create Issue](https://github.com)" ∧
    (generateGithubIssueUrl "o" "r" "t" "b" none =
        "[Create Issue](https://github.com)" ∨
      ∃ url : String, generateGithubIssueUrl "o" "r" "t" "b" none =
          "[Create Issue](" ++ url ++ ")" ∧
        (url.length ≤ 2048 ∨
          url = "https://github.com/" ++ "o" ++ "/" ++ "r" ++
            "/issues/new?title=" ++ encodeURIComponent (jsTake "t" 200) ++
            "&body=" ++ encodeURIComponent (jsTake "b" 5000))) :=
  ⟨(issue_url_properties "bad owner" "r" "t" "b" none).1 (by decide),
   (issue_url_properties "o" "r" "t" "b" none).2⟩

/-! ## Line renumbering (`assignLineNumbers`, C8) -/

/-- Maximal digit run of a character list. -/
def takeDigits (l : List Char) : List Char × List Char :=
  (l.takeWhile Char.isDigit, l.dropWhile Char.isDigit)

def digitsToNat (l : List Char) : Nat :=
  l.foldl (fun acc c => acc * 10 + (c.toNat - 48)) 0

/-- Try to match the hunk-header regex `@@ -d+,d+ \+(d+),d+ @@` at the head of
the list, returning the parsed capture (`parseInt(match[1])`, the new-side start
line). -/
def tryHunkAt (l : List Char) : Option Nat :=
  if ("@@ -".data).isPrefixOf l then
    let r0 := l.drop 4
    let (d1, r1) := takeDigits r0
    if d1 == [] then none
    else
      match r1 with
      | ',' :: r2 =>
        let (d2, r3) := takeDigits r2
        if d2 == [] then none
        else
          match r3 with
          | ' ' :: '+' :: r4 =>
            let (d3, r5) := takeDigits r4
            if d3 == [] then none
            else
              match r5 with
              | ',' :: r6 =>
                let (d4, r7) := takeDigits r6
                if d4 == [] then none
                else if (" @@".data).isPrefixOf r7 then some (digitsToNat d3)
                else none
              | _ => none
          | _ => none
      | _ => none
  else none

/-- `line.match(/@@ -\d+,\d+ \+(\d+),\d+ @@/)`: the leftmost match anywhere in
the line; `none` models a `null` match (on which the source would crash reading
`match[1]`). -/
def findHunkNumber : List Char → Option Nat
  | [] => none
  | c :: rest =>
    match tryHunkAt (c :: rest) with
    | some n => some n
    | none => findHunkNumber rest

/-- The line loop of `prompts.ts` `assignLineNumbers`: a `@@` line re-seeds the
counter from its header (crashing — `none` — if the header regex does not match
anywhere in the line) and is kept verbatim; a `-` line is dropped and consumes
no number; any other line is prefixed with the counter, which then
increments. -/
def assignGo : List String → Nat → Option (List String)
  | [], _ => some []
  | line :: rest, newLine =>
    if jsStartsWith line "@@" then
      match findHunkNumber line.data with
      | none => none
      | some c => (assignGo rest c).map (fun r => line :: r)
    else if jsStartsWith line "-" then assignGo rest newLine
    else
      (assignGo rest (newLine + 1)).map
        (fun r => (toString newLine ++ ": " ++ line) :: r)

/-- `prompts.ts` `assignLineNumbers`. -/
def assignLineNumbers (diff : String) : Option String :=
  (assignGo (strSplit diff '\n') 0).map (strJoin "\n")

/-- C8 (as stated, refuted): after the header `@@ -10,5 +20,5 @@`, the next
three lines of this diff do not start with `-`, yet they are NOT numbered
20, 21, 22: the second line is itself a hunk header (which does not start with
`-`), so it is kept verbatim and re-seeds the counter to 9. -/
theorem line_renumbering_counterexample :
    assignGo ["@@ -10,5 +20,5 @@", "@@ -1,1 +9,1 @@", "x", "y"] 0 =
      some ["@@ -10,5 +20,5 @@", "@@ -1,1 +9,1 @@", "9: x", "10: y"] ∧
    assignGo ["@@ -10,5 +20,5 @@", "@@ -1,1 +9,1 @@", "x", "y"] 0 ≠
      some ["@@ -10,5 +20,5 @@", "20: @@ -1,1 +9,1 @@", "21: x", "22: y"] := by
  exact ⟨by decide, by decide⟩

theorem startsWith_dash_not_hunk {l : String} (h : jsStartsWith l "-" = true) :
    jsStartsWith l "@@" = false := by
  unfold jsStartsWith at h ⊢
  cases hd : l.data with
  | nil => rw [hd] at h; simp [List.isPrefixOf] at h
  | cons c rest =>
    rw [hd] at h
    have hc : c = '-' := by
      simp [List.isPrefixOf] at h
      exact h.symm
    subst hc
    simp [List.isPrefixOf]

/-- C8 (amended): a hunk header `@@ -10,5 +20,5 @@` followed by three lines
that neither start with `-` nor start with `@@` renders those three lines
prefixed `20: `, `21: `, `22: ` in order (regardless of the incoming counter,
and with the counter at 23 for the remainder); and every line starting with `-`
is dropped and consumes no line number. -/
theorem line_renumbering (l1 l2 l3 : String) (post : List String) (n : Nat)
    (h1a : jsStartsWith l1 "@@" = false) (h1b : jsStartsWith l1 "-" = false)
    (h2a : jsStartsWith l2 "@@" = false) (h2b : jsStartsWith l2 "-" = false)
    (h3a : jsStartsWith l3 "@@" = false) (h3b : jsStartsWith l3 "-" = false) :
    assignGo ("@@ -10,5 +20,5 @@" :: l1 :: l2 :: l3 :: post) n =
      (assignGo post 23).map
        (fun r => "@@ -10,5 +20,5 @@" :: ("20: " ++ l1) :: ("21: " ++ l2) ::
          ("22: " ++ l3) :: r) ∧
    (∀ (l : String) (rest : List String) (m : Nat),
      jsStartsWith l "-" = true → assignGo (l :: rest) m = assignGo rest m) := by
  constructor
  · have hhead : jsStartsWith "@@ -10,5 +20,5 @@" "@@" = true := by decide
    have hhunk : findHunkNumber ("@@ -10,5 +20,5 @@" : String).data = some 20 := by
      decide
    simp only [assignGo, hhead, hhunk, h1a, h1b, h2a, h2b, h3a, h3b,
      Bool.false_eq_true, if_false, if_true, Option.map_map]
    simp only [show (toString 20 ++ ": " : String) = "20: " from by decide,
      show (toString 21 ++ ": " : String) = "21: " from by decide,
      show (toString 22 ++ ": " : String) = "22: " from by decide]
    rfl
  · intro l rest m hdash
    simp only [assignGo, startsWith_dash_not_hunk hdash, hdash,
      Bool.false_eq_true, if_false, if_true]

theorem line_renumbering_witness :
    assignGo ["@@ -10,5 +20,5 @@", "a", "b", "c"] 0 =
      (assignGo [] 23).map
        (fun r => "@@ -10,5 +20,5 @@" :: ("20: " ++ "a") :: ("21: " ++ "b") ::
          ("22: " ++ "c") :: r) ∧
    assignGo ["-x", "a"] 5 = assignGo ["a"] 5 :=
  ⟨(line_renumbering "a" "b" "c" [] 0 (by decide) (by decide) (by decide)
      (by decide) (by decide) (by decide)).1,
   (line_renumbering "a" "b" "c" [] 0 (by decide) (by decide) (by decide)
      (by decide) (by decide) (by decide)).2 "-x" ["a"] 5 (by decide)⟩
